import Mathlib

/-! Shallow embedding of the EDM compute kernel: the distance engine of
src/distances.cpp (`lp_distances`, `wasserstein_cost_matrix`, `wasserstein`,
`wasserstein_distances`), the S-map least-squares step of src/benchmark.cpp
(`bm_smap`), the return-code reduction of `mf_smap_loop_openmp`
(src/benchmark.cpp), and the neighbor-count default of `edm` (src/stata.cpp).

Data values (IEEE doubles in the source) are modelled as rationals; the final
square root of the Euclidean reduction and the exponential S-map weights are
real-valued.  The missing sentinel is compared only by exact equality, so a
rational stand-in is faithful. -/

namespace EDM

/-- Per-column metric choice (`Metric::Diff` / `Metric::CheckSame`). -/
inductive Metric
| Diff
| CheckSame
deriving DecidableEq

/-- Whole-distance reduction choice (`Distance::Euclidean` /
`Distance::MeanAbsoluteError`). -/
inductive Distance
| Euclidean
| MeanAbsoluteError
deriving DecidableEq

/-- Modelled from the spec: the missing sentinel `MISSING_D` lives in common.h
which is not part of src; the spec fixes it as "a fixed real value, typically
the largest finite double", compared only by exact equality.  We use the exact
value of the largest finite IEEE double. -/
def MISSING_D : ℚ := (2 ^ 53 - 1) * 2 ^ 971

/-- The option fields of `Options` (common.h) that the distance engine reads. -/
structure Options where
  panelMode : Bool
  idw : ℚ
  missingdistance : ℚ
  distance : Distance
  metrics : ℕ → Metric
  aspectRatio : ℚ

/-- The parts of the `Manifold` class (manifold.h) that `lp_distances` reads:
the row-major matrix entries `M(i,j)`, the panel ids and `E_actual()`. -/
structure Manifold where
  data : ℕ → ℕ → ℚ
  panel : ℕ → ℤ
  E_actual : ℕ

section LP

variable (opts : Options) (M Mp : Manifold)

/-- distances.cpp lines 32-34: the inter-panel penalty seeded into `dist_i`
before the column loop. -/
def lpSeed (i Mp_i : ℕ) : ℚ :=
  if opts.panelMode ∧ 0 < opts.idw then
    opts.idw * (if M.panel i ≠ Mp.panel Mp_i then 1 else 0)
  else 0

/-- distances.cpp line 44: either component of column `j` is the sentinel. -/
def missingPair (i Mp_i j : ℕ) : Prop :=
  M.data i j = MISSING_D ∨ Mp.data Mp_i j = MISSING_D

instance (i Mp_i j : ℕ) : Decidable (missingPair M Mp i Mp_i j) := by
  unfold missingPair; infer_instance

/-- distances.cpp lines 44-59: the per-column sub-distance `dist_ij`
(with `opts.missingdistance` substituted on a missing component; the
substitution is only reachable when `missingdistance != 0`). -/
def lpSubdist (i Mp_i j : ℕ) : ℚ :=
  if missingPair M Mp i Mp_i j then opts.missingdistance
  else
    match opts.metrics j with
    | Metric.Diff => M.data i j - Mp.data Mp_i j
    | Metric.CheckSame => if M.data i j ≠ Mp.data Mp_i j then 1 else 0

/-- distances.cpp lines 61-65: what column `j` adds to the accumulator. -/
def lpContrib (i Mp_i j : ℕ) : ℚ :=
  match opts.distance with
  | Distance.MeanAbsoluteError => |lpSubdist opts M Mp i Mp_i j| / (M.E_actual : ℚ)
  | Distance.Euclidean => lpSubdist opts M Mp i Mp_i j * lpSubdist opts M Mp i Mp_i j

/-- distances.cpp lines 36-66: the column loop over `j = 0 .. E_actual - 1`
accumulating into `dist_i`; on a missing component with
`opts.missingdistance == 0` the loop sets `dist_i = MISSING_D` and breaks. -/
def lpLoop (i Mp_i : ℕ) : List ℕ → ℚ → ℚ
| [], dist => dist
| j :: js, dist =>
  if missingPair M Mp i Mp_i j ∧ opts.missingdistance = 0 then MISSING_D
  else lpLoop i Mp_i js (dist + lpContrib opts M Mp i Mp_i j)

/-- The value of `dist_i` after the column loop for the pair `(i, Mp_i)`. -/
def lpDistRaw (i Mp_i : ℕ) : ℚ :=
  lpLoop opts M Mp i Mp_i (List.range M.E_actual) (lpSeed opts M Mp i Mp_i)

/-- distances.cpp line 68: the survival test `dist_i != 0 && dist_i != MISSING_D`. -/
def lpKeep (i Mp_i : ℕ) : Bool :=
  decide (lpDistRaw opts M Mp i Mp_i ≠ 0 ∧ lpDistRaw opts M Mp i Mp_i ≠ MISSING_D)

/-- distances.cpp lines 26-76: the `inds` sequence pushed by the candidate loop. -/
def lpInds (Mp_i : ℕ) : List ℕ → List ℕ
| [] => []
| i :: rest =>
  if lpKeep opts M Mp i Mp_i then i :: lpInds Mp_i rest else lpInds Mp_i rest

/-- distances.cpp lines 69-73: the value pushed onto `dists`
(`sqrt(dist_i)` for Euclidean, `dist_i` as-is for MeanAbsoluteError). -/
noncomputable def lpFinalDist (x : ℚ) : ℝ :=
  match opts.distance with
  | Distance.MeanAbsoluteError => (x : ℝ)
  | Distance.Euclidean => Real.sqrt (x : ℝ)

/-- distances.cpp lines 26-76: the `dists` sequence pushed by the candidate loop. -/
noncomputable def lpDists (Mp_i : ℕ) : List ℕ → List ℝ
| [] => []
| i :: rest =>
  if lpKeep opts M Mp i Mp_i then
    lpFinalDist opts (lpDistRaw opts M Mp i Mp_i) :: lpDists Mp_i rest
  else lpDists Mp_i rest

/-- The spec's own `d_ij` formula (section 4.2 step 2) for a pair with no
missing component, stated independently of the source loop so that the code
can be compared against it. -/
def spec_d (i Mp_i j : ℕ) : ℚ :=
  match opts.metrics j with
  | Metric.Diff => M.data i j - Mp.data Mp_i j
  | Metric.CheckSame => if M.data i j ≠ Mp.data Mp_i j then 1 else 0

end LP

/-! ### The S-map least-squares step of `bm_smap` (benchmark.cpp lines 552-618)

Inputs: `l` selected neighbors with library indices `ind 0 .. ind (l-1)`,
distances `d`, targets `y`, the library matrix `M` with `cols` columns
(`M.cols()`, the manifold width), the query row `b` and the parameter `theta`.
The SVD solve itself is Eigen's `BDCSVD` (external); the claims are about the
system fed into it and the prediction formula applied to its output `beta`. -/

/-- benchmark.cpp line 560: `w[j] = sqrt(d[ind[j]])`. -/
noncomputable def smapWraw (d : ℕ → ℚ) (ind : ℕ → ℕ) (j : ℕ) : ℝ :=
  Real.sqrt ((d (ind j) : ℝ))

/-- benchmark.cpp lines 556-563: `mean_w = (Σ_j w[j]) / l`. -/
noncomputable def smapMeanW (l : ℕ) (d : ℕ → ℚ) (ind : ℕ → ℕ) : ℝ :=
  (∑ j ∈ Finset.range l, smapWraw d ind j) / (l : ℝ)

/-- benchmark.cpp line 565: `w[j] = exp(-theta * (w[j] / mean_w))`. -/
noncomputable def smapW (l : ℕ) (d : ℕ → ℚ) (ind : ℕ → ℕ) (theta : ℚ) (j : ℕ) : ℝ :=
  Real.exp (-(theta : ℝ) * (smapWraw d ind j / smapMeanW l d ind))

/-- benchmark.cpp lines 570-581: neighbor `j` enters the system unless its
target or some component of its library row is missing (the two `continue`s). -/
def smapKeep (cols : ℕ) (ind : ℕ → ℕ) (y : ℕ → ℚ) (M : ℕ → ℕ → ℚ) (j : ℕ) : Prop :=
  y (ind j) ≠ MISSING_D ∧ ∀ i < cols, M (ind j) i ≠ MISSING_D

instance (cols : ℕ) (ind : ℕ → ℕ) (y : ℕ → ℚ) (M : ℕ → ℕ → ℚ) (j : ℕ) :
    Decidable (smapKeep cols ind y M j) := by
  unfold smapKeep
  infer_instance

/-- The row of the final system `X_ls_cj` contributed by neighbor `j`:
benchmark.cpp lines 585-607 write `X_ls(rowc, i) = M(ind[j], i) * w[j]` and
then prepend the column `w_ls[rowc] = w[j]` when assembling `X_ls_cj`
(the two phases are fused here). -/
noncomputable def smapRow (cols : ℕ) (ind : ℕ → ℕ) (M : ℕ → ℕ → ℚ) (w : ℕ → ℝ)
    (j : ℕ) : List ℝ :=
  w j :: (List.range cols).map (fun c => (M (ind j) c : ℝ) * w j)

/-- One iteration of the `j = 0 .. l-1` loop of benchmark.cpp lines 569-590:
on a kept neighbor, `rowc` advances and the row/target entries are written at
position `rowc` (modelled by appending). -/
noncomputable def smapStep (cols : ℕ) (ind : ℕ → ℕ) (y : ℕ → ℚ) (M : ℕ → ℕ → ℚ)
    (w : ℕ → ℝ) (st : List (List ℝ) × List ℝ) (j : ℕ) : List (List ℝ) × List ℝ :=
  if smapKeep cols ind y M j then
    (st.1 ++ [smapRow cols ind M w j], st.2 ++ [(y (ind j) : ℝ) * w j])
  else st

/-- The assembled least-squares system `(X_ls_cj, y_ls_cj)` of benchmark.cpp
lines 569-607. -/
noncomputable def smapBuild (l cols : ℕ) (ind : ℕ → ℕ) (y : ℕ → ℚ) (M : ℕ → ℕ → ℚ)
    (w : ℕ → ℝ) : List (List ℝ) × List ℝ :=
  (List.range l).foldl (smapStep cols ind y M w) ([], [])

/-- benchmark.cpp lines 612-617: `r = ics(0)` then, for each column with a
non-missing query component, `r += b(j-1) * ics(j)`. -/
noncomputable def smapPredict (cols : ℕ) (b : ℕ → ℚ) (beta : ℕ → ℝ) : ℝ :=
  (List.range cols).foldl
    (fun r c => if b c ≠ MISSING_D then r + (b c : ℝ) * beta (c + 1) else r) (beta 0)

/-! ### The Wasserstein path (distances.cpp lines 107-310) -/

/-- The value `std::numeric_limits<double>::max()`, the initializer of `minData`
(distances.cpp line 141). -/
def dblMax : ℚ := (2 ^ 53 - 1) * 2 ^ 971

/-- The value `std::numeric_limits<double>::min()` — the smallest positive normal
double — the initializer of `maxData` (distances.cpp line 142). -/
def dblMinPos : ℚ := 1 / 2 ^ 1022

/-- The inputs of one `wasserstein_cost_matrix(M, Mp, i, j, opts, ...)` call:
`E = M.E()`, the lagged-observation maps `A = M.laggedObsMap(i)` and
`B = Mp.laggedObsMap(j)` (`D = timeSeriesDim` dimension rows by `E` time
columns, indexed `A k t`), the per-dimension metrics, the missing-distance
option, whether dt is embedded (`M.E_dt() > 0`), the aspect ratio, the
unlagged extras `ux`/`uy` of the two observations, and the panel facts. -/
structure WInput where
  E : ℕ
  D : ℕ
  A : ℕ → ℕ → ℚ
  B : ℕ → ℕ → ℚ
  metrics : ℕ → Metric
  missingdistance : ℚ
  hasDt : Bool
  aspectRatio : ℚ
  numUnlagged : ℕ
  ux : ℕ → ℚ
  uy : ℕ → ℚ
  panelMode : Bool
  idw : ℚ
  panelsDiffer : Bool

/-- distances.cpp line 124: column (time position) `t` of `M_i` contains a
missing value in some dimension (`colwise().any()`). -/
def colMissA (w : WInput) (t : ℕ) : Bool :=
  (List.range w.D).any (fun k => decide (w.A k t = MISSING_D))

/-- distances.cpp line 125: same for `Mp_j`. -/
def colMissB (w : WInput) (t : ℕ) : Bool :=
  (List.range w.D).any (fun k => decide (w.B k t = MISSING_D))

/-- distances.cpp line 119: `skipMissing = (opts.missingdistance == 0)`. -/
def skipMissing (w : WInput) : Bool := decide (w.missingdistance = 0)

/-- distances.cpp lines 127-134: `len_i`. -/
def lenI (w : WInput) : ℕ :=
  if skipMissing w then w.E - (List.range w.E).countP (colMissA w) else w.E

/-- distances.cpp lines 127-134: `len_j`. -/
def lenJ (w : WInput) : ℕ :=
  if skipMissing w then w.E - (List.range w.E).countP (colMissB w) else w.E

/-- The non-missing time positions kept by the compression, in order (the
values the loop counter `nn` takes whenever `n` advances). -/
def keptA (w : WInput) : List ℕ :=
  (List.range w.E).filter (fun t => !(colMissA w t))

/-- Same for the `mm`/`m` counters. -/
def keptB (w : WInput) : List ℕ :=
  (List.range w.E).filter (fun t => !(colMissB w t))

/-- The source column `nn` feeding row `n` of the cost matrix. -/
def posA (w : WInput) (n : ℕ) : ℕ :=
  if skipMissing w then (keptA w).getD n 0 else n

/-- The source column `mm` feeding column `m` of the cost matrix. -/
def posB (w : WInput) (m : ℕ) : ℕ :=
  if skipMissing w then (keptB w).getD m 0 else m

/-- distances.cpp lines 141-152: running minimum of the non-missing entries
of the primary data row, initialized to `DBL_MAX`. -/
def wcmMinData (w : WInput) : ℚ :=
  (List.range w.E).foldl
    (fun acc t => if w.A 0 t ≠ MISSING_D ∧ w.A 0 t < acc then w.A 0 t else acc) dblMax

/-- distances.cpp lines 141-152: running maximum, initialized to `DBL_MIN`. -/
def wcmMaxData (w : WInput) : ℚ :=
  (List.range w.E).foldl
    (fun acc t => if w.A 0 t ≠ MISSING_D ∧ acc < w.A 0 t then w.A 0 t else acc) dblMinPos

/-- distances.cpp lines 153-155: running maximum over the dt row,
initialized to 0. -/
def wcmMaxTime (w : WInput) : ℚ :=
  (List.range w.E).foldl
    (fun acc t => if w.A 1 t ≠ MISSING_D ∧ acc < w.A 1 t then w.A 1 t else acc) 0

/-- distances.cpp lines 136-160: the dt scaling factor `gamma`
(`epsilon = 1e-6`); 1 when dt is not embedded. -/
def wcmGamma (w : WInput) : ℚ :=
  if w.hasDt then
    w.aspectRatio * (wcmMaxData w - wcmMinData w + 1 / 1000000) / (wcmMaxTime w + 1 / 1000000)
  else 1

/-- distances.cpp lines 164-185: the unlagged-extras floor plus the panel
penalty, written into every entry of the cost matrix (line 188). -/
def wcmUnlagged (w : WInput) : ℚ :=
  (List.range w.numUnlagged).foldl
    (fun acc e =>
      if w.ux e = MISSING_D ∨ w.uy e = MISSING_D then acc + w.missingdistance
      else
        match w.metrics (w.D + e) with
        | Metric.Diff => acc + |w.ux e - w.uy e|
        | Metric.CheckSame => acc + (if w.ux e ≠ w.uy e then 1 else 0)) 0
  + (if w.panelMode ∧ 0 < w.idw then w.idw * (if w.panelsDiffer then 1 else 0) else 0)

/-- distances.cpp lines 204-215: the per-dimension cost between column `nn`
of `M_i` and column `mm` of `Mp_j` along dimension `k`, before the dt scaling
(`eitherMissing` is the column-level flag of lines 124-125). -/
def wcmBase (w : WInput) (k nn mm : ℕ) : ℚ :=
  if colMissA w nn || colMissB w mm then w.missingdistance
  else
    match w.metrics k with
    | Metric.Diff => |w.A k nn - w.B k mm|
    | Metric.CheckSame => if w.A k nn ≠ w.B k mm then 1 else 0

/-- distances.cpp lines 217-220: the dt dimension (`k == 1` when dt is
embedded) is additionally scaled by `gamma`. -/
def wcmDist (w : WInput) (k nn mm : ℕ) : ℚ :=
  if w.hasDt ∧ k = 1 then wcmGamma w * wcmBase w k nn mm else wcmBase w k nn mm

/-- distances.cpp lines 187-229: entry `(n, m)` of the cost matrix — the
unlagged floor the matrix was filled with, plus what the triple loop adds for
every dimension `k`; the loop visits non-missing columns in order when
compressing, so row `n` reads source column `posA n`. -/
def wcmEntry (w : WInput) (n m : ℕ) : ℚ :=
  wcmUnlagged w + ∑ k ∈ Finset.range w.D, wcmDist w k (posA w n) (posB w m)

/-- Modelled from the spec: `EMD_wrap` (EMD_wrapper.h, the vendored
network-simplex transportation solver, not part of src) returns, per section
4.2 step 4, "the optimal transport cost" of the cost matrix under the given
marginals: the infimum of the transport cost over nonnegative couplings with
those marginals. -/
noncomputable def emdCost (li lj : ℕ) (a b : ℕ → ℝ) (C : ℕ → ℕ → ℝ) : ℝ :=
  sInf { c : ℝ | ∃ P : ℕ → ℕ → ℝ,
    (∀ n m, 0 ≤ P n m) ∧
    (∀ n < li, ∑ m ∈ Finset.range lj, P n m = a n) ∧
    (∀ m < lj, ∑ n ∈ Finset.range li, P n m = b m) ∧
    c = ∑ n ∈ Finset.range li, ∑ m ∈ Finset.range lj, P n m * C n m }

/-- distances.cpp lines 268-280: `wasserstein` fills the uniform marginals
`1/len_i`, `1/len_j` and calls `EMD_wrap` on the cost matrix. -/
noncomputable def wassersteinFn (C : ℕ → ℕ → ℝ) (li lj : ℕ) : ℝ :=
  emdCost li lj (fun _ => 1 / (li : ℝ)) (fun _ => 1 / (lj : ℝ)) C

/-- The distance computed for one candidate of `wasserstein_distances`
(distances.cpp line 295): the transport cost of its cost matrix. -/
noncomputable def wassersteinDist (w : WInput) : ℝ :=
  wassersteinFn (fun n m => ((wcmEntry w n m : ℚ) : ℝ)) (lenI w) (lenJ w)

section
open Classical

/-- distances.cpp lines 282-310: the candidate loop of
`wasserstein_distances`; `ws i` packages the cost-matrix inputs of candidate
`i` against the fixed query observation.  A candidate is kept when its cost
matrix is nonempty (`len_i > 0 && len_j > 0`) and its distance passes
`dist_i != 0 && std::isnormal(dist_i)`; in this real-valued model a value is
never subnormal, infinite or NaN, so `isnormal` keeps exactly the nonzero
distances. -/
noncomputable def wassersteinLoop (ws : ℕ → WInput) : List ℕ → List ℕ × List ℝ
| [] => ([], [])
| i :: rest =>
  let r := wassersteinLoop ws rest
  if 0 < lenI (ws i) ∧ 0 < lenJ (ws i) then
    if wassersteinDist (ws i) ≠ 0 then
      (i :: r.1, wassersteinDist (ws i) :: r.2)
    else r
  else r

end

/-! ### The return-code reduction of `mf_smap_loop_openmp`
(benchmark.cpp lines 671-685) -/

/-- The reduction `*std::max_element(rc.begin(), rc.end())` on a nonempty vector (return
codes are ordered by severity, higher = worse). -/
def max_element : List ℕ → ℕ
| [] => 0
| r :: rest => rest.foldl max r

/-- benchmark.cpp lines 677-680: `rc[i] = mf_smap_single(i, ...)` for each
query row `i`. -/
def mf_smap_loop_rcs (single : ℕ → ℕ) (rows : ℕ) : List ℕ :=
  (List.range rows).map single

/-- benchmark.cpp line 683: the reduced `maxError` returned by the loop. -/
def mf_smap_loop_maxError (single : ℕ → ℕ) (rows : ℕ) : ℕ :=
  max_element (mf_smap_loop_rcs single rows)

/-! ### The neighbor-count default of `edm` (stata.cpp lines 401-404) -/

/-- stata.cpp lines 401-404: `if (opts.k <= 0) { opts.k = mani + 1; }`, where
`mani` is the number of columns in the manifold (`E_actual`). -/
def edmAdjustK (k : ℤ) (mani : ℕ) : ℤ :=
  if k ≤ 0 then (mani : ℤ) + 1 else k

/-- Modelled from the spec: the neighbor-selection rule of section 4.3
("If `k < 0`: use all surviving candidates. Else let `kk = min(k, |surviving|)`.")
lives in the prediction core, which is not part of src. -/
def selectCount (k : ℤ) (numValid : ℕ) : ℕ :=
  if k < 0 then numValid else min k.toNat numValid

/-- The neighbor count used for a run entered through `edm`: the stata.cpp
clamp runs before the core's selection rule ever sees `k`. -/
def edmNeighborCount (k : ℤ) (mani : ℕ) (numValid : ℕ) : ℕ :=
  selectCount (edmAdjustK k mani) numValid

/-! ### Concrete instances used by witnesses and counterexamples -/

/-- Inputs exercising the missing-value policy: one library row whose single
column is the sentinel. -/
def w1opts : Options := ⟨false, 0, 0, Distance.Euclidean, fun _ => Metric.Diff, 1⟩

def w1M : Manifold := ⟨fun _ _ => MISSING_D, fun _ => 0, 1⟩

def w1Mp : Manifold := ⟨fun _ _ => 3, fun _ => 0, 1⟩

/-- Inputs with no missing components for the L^p formula claim. -/
def w2opts : Options := ⟨false, 0, 0, Distance.Euclidean, fun _ => Metric.Diff, 1⟩

def w2M : Manifold := ⟨fun _ _ => 2, fun _ => 0, 1⟩

def w2Mp : Manifold := ⟨fun _ _ => 5, fun _ => 0, 1⟩

/-- A library row identical to the query row, two different panels, inter-panel
penalty 10: the duplicate gets distance 10, not 0. -/
def c4opts : Options := ⟨true, 10, 0, Distance.Euclidean, fun _ => Metric.Diff, 1⟩

def c4M : Manifold := ⟨fun _ _ => 5, fun _ => 0, 1⟩

def c4Mp : Manifold := ⟨fun _ _ => 5, fun _ => 1, 1⟩

/-- Panel-penalty-free duplicate pair for the amended duplicate claim. -/
def w4opts : Options := ⟨false, 0, 0, Distance.Euclidean, fun _ => Metric.Diff, 1⟩

def w4M : Manifold := ⟨fun _ _ => 2, fun _ => 0, 1⟩

def w4Mp : Manifold := ⟨fun _ _ => 2, fun _ => 0, 1⟩

/-- A concrete cost-matrix input with dt embedded: `E = 2`, dimension rows
`x` (`k = 0`, values `[1, 2]`) and `dt` (`k = 1`, values `[1, MISSING]`),
`aspectRatio = 3`, `missingdistance = 1`.  `gamma` evaluates to exactly 3, so
the per-dimension cost at the missing dt entry is `3`, not `missingdistance`. -/
def c7w : WInput :=
  { E := 2
    D := 2
    A := fun k t =>
      if k = 0 then (if t = 0 then 1 else 2) else (if t = 0 then 1 else MISSING_D)
    B := fun _ _ => 1
    metrics := fun _ => Metric.Diff
    missingdistance := 1
    hasDt := true
    aspectRatio := 3
    numUnlagged := 0
    ux := fun _ => 0
    uy := fun _ => 0
    panelMode := false
    idw := 0
    panelsDiffer := false }

/-- Cross-panel pair with `idw = 10`, Euclidean metric and equal data: the
accumulator is exactly 10, so the returned distance is `sqrt 10 < 10`. -/
def c5opts : Options := ⟨true, 10, 0, Distance.Euclidean, fun _ => Metric.Diff, 1⟩

def c5M : Manifold := ⟨fun _ _ => 5, fun _ => 0, 1⟩

def c5Mp : Manifold := ⟨fun _ _ => 5, fun _ => 1, 1⟩

/-! ### Helper lemmas for the L^p path -/

theorem MISSING_D_pos : 0 < MISSING_D := by norm_num [MISSING_D]

theorem list_range_map_sum (f : ℕ → ℚ) (n : ℕ) :
    ((List.range n).map f).sum = ∑ j ∈ Finset.range n, f j := by
  induction n with
  | zero => simp
  | succ n ih =>
    rw [List.range_succ, List.map_append, List.sum_append, Finset.sum_range_succ, ih]
    simp

theorem lpLoop_eq_sum (opts : Options) (M Mp : Manifold) (i Mp_i : ℕ)
    (js : List ℕ) (acc : ℚ)
    (h : ∀ j ∈ js, ¬(missingPair M Mp i Mp_i j ∧ opts.missingdistance = 0)) :
    lpLoop opts M Mp i Mp_i js acc = acc + (js.map (lpContrib opts M Mp i Mp_i)).sum := by
  induction js generalizing acc with
  | nil => simp [lpLoop]
  | cons j js ih =>
    rw [lpLoop, if_neg (h j (by simp))]
    rw [ih _ (fun x hx => h x (by simp [hx]))]
    simp
    ring

theorem lpLoop_break (opts : Options) (M Mp : Manifold) (i Mp_i : ℕ)
    (js : List ℕ) (acc : ℚ) (hmd : opts.missingdistance = 0)
    (hex : ∃ j ∈ js, missingPair M Mp i Mp_i j) :
    lpLoop opts M Mp i Mp_i js acc = MISSING_D := by
  induction js generalizing acc with
  | nil => simp at hex
  | cons j js ih =>
    by_cases hj : missingPair M Mp i Mp_i j
    · rw [lpLoop, if_pos ⟨hj, hmd⟩]
    · rw [lpLoop, if_neg (by tauto)]
      apply ih
      rcases hex with ⟨x, hx, hmx⟩
      rcases List.mem_cons.mp hx with rfl | hx2
      · exact absurd hmx hj
      · exact ⟨x, hx2, hmx⟩

theorem lpDistRaw_eq_sum (opts : Options) (M Mp : Manifold) (i Mp_i : ℕ)
    (h : ¬(opts.missingdistance = 0 ∧ ∃ j < M.E_actual, missingPair M Mp i Mp_i j)) :
    lpDistRaw opts M Mp i Mp_i =
      lpSeed opts M Mp i Mp_i + ∑ j ∈ Finset.range M.E_actual, lpContrib opts M Mp i Mp_i j := by
  rw [lpDistRaw, lpLoop_eq_sum, list_range_map_sum]
  intro j hj hc
  exact h ⟨hc.2, j, List.mem_range.mp hj, hc.1⟩

theorem lpDistRaw_break (opts : Options) (M Mp : Manifold) (i Mp_i : ℕ)
    (hmd : opts.missingdistance = 0)
    (hex : ∃ j < M.E_actual, missingPair M Mp i Mp_i j) :
    lpDistRaw opts M Mp i Mp_i = MISSING_D := by
  rcases hex with ⟨j, hj, hm⟩
  exact lpLoop_break opts M Mp i Mp_i _ _ hmd ⟨j, List.mem_range.mpr hj, hm⟩

theorem lpInds_eq_filter (opts : Options) (M Mp : Manifold) (Mp_i : ℕ) (l : List ℕ) :
    lpInds opts M Mp Mp_i l = l.filter (fun i => lpKeep opts M Mp i Mp_i) := by
  induction l with
  | nil => simp [lpInds]
  | cons i rest ih =>
    by_cases hk : lpKeep opts M Mp i Mp_i
    · simp [lpInds, hk, List.filter_cons, ih]
    · simp [lpInds, hk, List.filter_cons, ih]

theorem lpDists_eq_map (opts : Options) (M Mp : Manifold) (Mp_i : ℕ) (l : List ℕ) :
    lpDists opts M Mp Mp_i l =
      (lpInds opts M Mp Mp_i l).map
        (fun i => lpFinalDist opts (lpDistRaw opts M Mp i Mp_i)) := by
  induction l with
  | nil => simp [lpDists, lpInds]
  | cons i rest ih =>
    by_cases hk : lpKeep opts M Mp i Mp_i
    · simp [lpDists, lpInds, hk, ih]
    · simp [lpDists, lpInds, hk, ih]

theorem lpContrib_nonneg (opts : Options) (M Mp : Manifold) (i Mp_i j : ℕ) :
    0 ≤ lpContrib opts M Mp i Mp_i j := by
  unfold lpContrib
  rcases h : opts.distance with _ | _
  · exact mul_self_nonneg _
  · exact div_nonneg (abs_nonneg _) (by positivity)

theorem lpSubdist_of_missing (opts : Options) (M Mp : Manifold) (i Mp_i j : ℕ)
    (hp : missingPair M Mp i Mp_i j) :
    lpSubdist opts M Mp i Mp_i j = opts.missingdistance := by
  rw [lpSubdist, if_pos hp]

theorem lpSubdist_of_not_missing (opts : Options) (M Mp : Manifold) (i Mp_i j : ℕ)
    (hp : ¬missingPair M Mp i Mp_i j) :
    lpSubdist opts M Mp i Mp_i j = spec_d opts M Mp i Mp_i j := by
  rw [lpSubdist, if_neg hp, spec_d]

/-! ### Claim theorems about the L^p path -/

/-- C1: In `lp_distances`, if some column of the pair `(i, Mp_i)` has a missing
component then: with `missingdistance == 0` the pair is excluded from the
returned index sequence regardless of the other columns and of any panel
penalty already seeded; with `missingdistance > 0` every such column's
sub-distance is exactly `missingdistance` (also when both components are
missing), and the accumulated distance is the seeded penalty plus the sum of
all per-column contributions. -/
theorem claim1_missing_policy (opts : Options) (M Mp : Manifold) (i Mp_i : ℕ)
    (inpInds : List ℕ)
    (hmiss : ∃ j < M.E_actual, missingPair M Mp i Mp_i j) :
    (opts.missingdistance = 0 → i ∉ lpInds opts M Mp Mp_i inpInds) ∧
    (0 < opts.missingdistance →
      (∀ j < M.E_actual, missingPair M Mp i Mp_i j →
        lpSubdist opts M Mp i Mp_i j = opts.missingdistance) ∧
      lpDistRaw opts M Mp i Mp_i =
        lpSeed opts M Mp i Mp_i +
          ∑ j ∈ Finset.range M.E_actual, lpContrib opts M Mp i Mp_i j) := by
  constructor
  · intro hmd hmem
    rw [lpInds_eq_filter] at hmem
    have hk := (List.mem_filter.mp hmem).2
    have hraw := lpDistRaw_break opts M Mp i Mp_i hmd hmiss
    simp [lpKeep, hraw] at hk
  · intro hmd
    refine ⟨fun j _ hp => lpSubdist_of_missing opts M Mp i Mp_i j hp, ?_⟩
    refine lpDistRaw_eq_sum opts M Mp i Mp_i ?_
    rintro ⟨h0, -⟩
    exact absurd h0 (ne_of_gt hmd)

/-- C1 witness: the hypotheses of `claim1_missing_policy` hold at a concrete
input, and there the candidate is indeed excluded. -/
theorem claim1_missing_policy_witness :
    (∃ j < w1M.E_actual, missingPair w1M w1Mp 0 0 j) ∧
    (0:ℕ) ∉ lpInds w1opts w1M w1Mp 0 [0] := by
  have hmiss : ∃ j < w1M.E_actual, missingPair w1M w1Mp 0 0 j :=
    ⟨0, by norm_num [w1M], Or.inl rfl⟩
  exact ⟨hmiss, (claim1_missing_policy w1opts w1M w1Mp 0 0 [0] hmiss).1 rfl⟩

/-- C2: for a pair with no missing component, each column's sub-distance is the
spec's `d_ij` (difference for `Diff`, 0/1 indicator for `CheckSame`), and, with
no panel penalty in play, the computed distance reduces the columns as
`sqrt` of the sum of `d_ij^2` for Euclidean and as the plain sum of
`|d_ij| / E_actual` for MeanAbsoluteError. -/
theorem claim2_lp_formulas (opts : Options) (M Mp : Manifold) (i Mp_i : ℕ)
    (hpanel : opts.panelMode = false)
    (hnomiss : ∀ j < M.E_actual, M.data i j ≠ MISSING_D ∧ Mp.data Mp_i j ≠ MISSING_D) :
    (∀ j < M.E_actual, lpSubdist opts M Mp i Mp_i j = spec_d opts M Mp i Mp_i j) ∧
    (opts.distance = Distance.Euclidean →
      lpFinalDist opts (lpDistRaw opts M Mp i Mp_i) =
        Real.sqrt ((∑ j ∈ Finset.range M.E_actual, spec_d opts M Mp i Mp_i j ^ 2 : ℚ) : ℝ)) ∧
    (opts.distance = Distance.MeanAbsoluteError →
      lpFinalDist opts (lpDistRaw opts M Mp i Mp_i) =
        ((∑ j ∈ Finset.range M.E_actual,
            |spec_d opts M Mp i Mp_i j| / (M.E_actual : ℚ) : ℚ) : ℝ)) := by
  have hnp : ∀ j < M.E_actual, ¬missingPair M Mp i Mp_i j := by
    intro j hj hp
    rcases hp with hp | hp
    · exact (hnomiss j hj).1 hp
    · exact (hnomiss j hj).2 hp
  have hseed : lpSeed opts M Mp i Mp_i = 0 := by
    simp [lpSeed, hpanel]
  have hraw : lpDistRaw opts M Mp i Mp_i =
      ∑ j ∈ Finset.range M.E_actual, lpContrib opts M Mp i Mp_i j := by
    rw [lpDistRaw_eq_sum opts M Mp i Mp_i, hseed, zero_add]
    rintro ⟨-, j, hj, hp⟩
    exact hnp j hj hp
  refine ⟨fun j hj => lpSubdist_of_not_missing opts M Mp i Mp_i j (hnp j hj), ?_, ?_⟩
  · intro hE
    have hsum : ∀ j ∈ Finset.range M.E_actual,
        lpContrib opts M Mp i Mp_i j = spec_d opts M Mp i Mp_i j ^ 2 := by
      intro j hj
      rw [lpContrib, hE]
      simp only
      rw [lpSubdist_of_not_missing opts M Mp i Mp_i j (hnp j (Finset.mem_range.mp hj)), sq]
    rw [lpFinalDist, hE]
    simp only
    rw [hraw, Finset.sum_congr rfl hsum]
  · intro hE
    have hsum : ∀ j ∈ Finset.range M.E_actual,
        lpContrib opts M Mp i Mp_i j = |spec_d opts M Mp i Mp_i j| / (M.E_actual : ℚ) := by
      intro j hj
      rw [lpContrib, hE]
      simp only
      rw [lpSubdist_of_not_missing opts M Mp i Mp_i j (hnp j (Finset.mem_range.mp hj))]
    rw [lpFinalDist, hE]
    simp only
    rw [hraw, Finset.sum_congr rfl hsum]

/-- C2 witness: the hypotheses of `claim2_lp_formulas` hold at a concrete
input and the Euclidean reduction formula applies there. -/
theorem claim2_lp_formulas_witness :
    (∀ j < w2M.E_actual, w2M.data 0 j ≠ MISSING_D ∧ w2Mp.data 0 j ≠ MISSING_D) ∧
    lpFinalDist w2opts (lpDistRaw w2opts w2M w2Mp 0 0) =
      Real.sqrt ((∑ j ∈ Finset.range w2M.E_actual, spec_d w2opts w2M w2Mp 0 0 j ^ 2 : ℚ) : ℝ) := by
  have hnomiss : ∀ j < w2M.E_actual, w2M.data 0 j ≠ MISSING_D ∧ w2Mp.data 0 j ≠ MISSING_D := by
    intro j hj
    constructor <;> norm_num [w2M, w2Mp, MISSING_D]
  exact ⟨hnomiss, (claim2_lp_formulas w2opts w2M w2Mp 0 0 rfl hnomiss).2.1 rfl⟩

/-- C4 counterexample: with the inter-panel penalty active (`panelMode`,
`idw = 10`), a library row that duplicates the query row and contains no
missing value is computed at distance 10, not 0, and is returned as a
candidate, so "distance is zero exactly for duplicates" fails as stated. -/
theorem claim4_zero_iff_duplicate_cex :
    (∀ j < c4M.E_actual, c4M.data 0 j ≠ MISSING_D ∧ c4Mp.data 0 j ≠ MISSING_D) ∧
    (∀ j < c4M.E_actual, c4M.data 0 j = c4Mp.data 0 j) ∧
    lpDistRaw c4opts c4M c4Mp 0 0 = 10 ∧
    ¬(lpDistRaw c4opts c4M c4Mp 0 0 = 0 ↔
        ∀ j < c4M.E_actual, c4M.data 0 j = c4Mp.data 0 j) ∧
    lpInds c4opts c4M c4Mp 0 [0] = [0] := by
  have hraw : lpDistRaw c4opts c4M c4Mp 0 0 = 10 := by
    norm_num [lpDistRaw, lpLoop, lpSeed, lpContrib, lpSubdist, missingPair,
      List.range_succ, c4opts, c4M, c4Mp, MISSING_D]
  have hdup : ∀ j < c4M.E_actual, c4M.data 0 j = c4Mp.data 0 j := by
    intro j hj
    norm_num [c4M, c4Mp]
  refine ⟨?_, hdup, hraw, ?_, ?_⟩
  · intro j hj
    constructor <;> norm_num [c4M, c4Mp, MISSING_D]
  · intro hiff
    have h0 := hiff.mpr hdup
    rw [hraw] at h0
    norm_num at h0
  · have hkeep : lpKeep c4opts c4M c4Mp 0 0 = true := by
      simp only [lpKeep, hraw]
      norm_num [MISSING_D]
    simp [lpInds, hkeep]

/-- C4 (amended): over a library with no missing data, and provided the
inter-panel penalty is not seeded (panel mode off), a candidate's accumulated
distance is zero exactly when its embedded row duplicates the query's row;
every zero-distance candidate is dropped from the returned index sequence, so
a library point identical to the query is never selected as its own neighbor. -/
theorem claim4_zero_iff_duplicate (opts : Options) (M Mp : Manifold) (Mp_i : ℕ)
    (inpInds : List ℕ)
    (hpanel : opts.panelMode = false)
    (hlib : ∀ i ∈ inpInds, ∀ j < M.E_actual, M.data i j ≠ MISSING_D) :
    (∀ i ∈ inpInds,
      (lpDistRaw opts M Mp i Mp_i = 0 ↔ ∀ j < M.E_actual, M.data i j = Mp.data Mp_i j)) ∧
    (∀ i ∈ inpInds,
      lpDistRaw opts M Mp i Mp_i = 0 → i ∉ lpInds opts M Mp Mp_i inpInds) := by
  have hseed : ∀ i, lpSeed opts M Mp i Mp_i = 0 := fun i => by simp [lpSeed, hpanel]
  constructor
  · intro i hi
    constructor
    · intro h0
      by_cases hbr : opts.missingdistance = 0 ∧ ∃ j < M.E_actual, missingPair M Mp i Mp_i j
      · rw [lpDistRaw_break opts M Mp i Mp_i hbr.1 hbr.2] at h0
        exact absurd h0 (ne_of_gt MISSING_D_pos)
      · rw [lpDistRaw_eq_sum opts M Mp i Mp_i hbr, hseed, zero_add] at h0
        have hz := (Finset.sum_eq_zero_iff_of_nonneg
          (fun j _ => lpContrib_nonneg opts M Mp i Mp_i j)).mp h0
        intro j hj
        have hcj := hz j (Finset.mem_range.mpr hj)
        have hEpos : (0:ℚ) < (M.E_actual : ℚ) := by
          exact_mod_cast Nat.lt_of_le_of_lt (Nat.zero_le j) hj
        have hnp : ¬missingPair M Mp i Mp_i j := by
          intro hp
          have hmd : opts.missingdistance ≠ 0 := fun h => hbr ⟨h, j, hj, hp⟩
          have hsub := lpSubdist_of_missing opts M Mp i Mp_i j hp
          rcases hd : opts.distance with _ | _
          · simp only [lpContrib, hd, hsub] at hcj
            exact hmd (mul_self_eq_zero.mp hcj)
          · simp only [lpContrib, hd, hsub] at hcj
            rcases div_eq_zero_iff.mp hcj with habs | hE0
            · exact hmd (abs_eq_zero.mp habs)
            · exact absurd hE0 (ne_of_gt hEpos)
        have hsub0 : lpSubdist opts M Mp i Mp_i j = 0 := by
          rcases hd : opts.distance with _ | _
          · simp only [lpContrib, hd] at hcj
            exact mul_self_eq_zero.mp hcj
          · simp only [lpContrib, hd] at hcj
            rcases div_eq_zero_iff.mp hcj with habs | hE0
            · exact abs_eq_zero.mp habs
            · exact absurd hE0 (ne_of_gt hEpos)
        rw [lpSubdist_of_not_missing opts M Mp i Mp_i j hnp] at hsub0
        rcases hm : opts.metrics j with _ | _
        · simp only [spec_d, hm] at hsub0
          exact sub_eq_zero.mp hsub0
        · simp only [spec_d, hm] at hsub0
          by_contra hne
          rw [if_pos hne] at hsub0
          exact one_ne_zero hsub0
    · intro hdup
      have hnp : ∀ j < M.E_actual, ¬missingPair M Mp i Mp_i j := by
        intro j hj hp
        rcases hp with hp | hp
        · exact hlib i hi j hj hp
        · rw [← hdup j hj] at hp
          exact hlib i hi j hj hp
      rw [lpDistRaw_eq_sum opts M Mp i Mp_i
          (by rintro ⟨-, j, hj, hp⟩; exact hnp j hj hp), hseed, zero_add]
      apply Finset.sum_eq_zero
      intro j hj
      have hj2 := Finset.mem_range.mp hj
      have hsub : lpSubdist opts M Mp i Mp_i j = 0 := by
        rw [lpSubdist_of_not_missing opts M Mp i Mp_i j (hnp j hj2)]
        rcases hm : opts.metrics j with _ | _
        · simp only [spec_d, hm]
          rw [hdup j hj2, sub_self]
        · simp only [spec_d, hm]
          rw [if_neg]
          simp [hdup j hj2]
      rcases hd : opts.distance with _ | _ <;> simp [lpContrib, hd, hsub]
  · intro i _ h0 hmem
    rw [lpInds_eq_filter] at hmem
    have hk := (List.mem_filter.mp hmem).2
    simp [lpKeep, h0] at hk

/-- C4 witness: the hypotheses of the amended claim hold at a concrete
duplicate pair, and the biconditional holds there. -/
theorem claim4_zero_iff_duplicate_witness :
    (∀ i ∈ ([0] : List ℕ), ∀ j < w4M.E_actual, w4M.data i j ≠ MISSING_D) ∧
    (lpDistRaw w4opts w4M w4Mp 0 0 = 0 ↔
      ∀ j < w4M.E_actual, w4M.data 0 j = w4Mp.data 0 j) := by
  have hlib : ∀ i ∈ ([0] : List ℕ), ∀ j < w4M.E_actual, w4M.data i j ≠ MISSING_D := by
    intro i _ j _
    norm_num [w4M, MISSING_D]
  exact ⟨hlib,
    (claim4_zero_iff_duplicate w4opts w4M w4Mp 0 [0] rfl hlib).1 0 (by simp)⟩

/-- C5 counterexample: with `panelMode` and `idw = 10`, a cross-panel
candidate with data identical to the query survives with returned Euclidean
distance `sqrt 10 < 10`: the claimed floor `idw` on the returned distance
fails (the penalty is seeded before the final square root). -/
theorem claim5_panel_floor_cex :
    c5opts.panelMode = true ∧ c5opts.idw = 10 ∧ c5M.panel 0 ≠ c5Mp.panel 0 ∧
    lpInds c5opts c5M c5Mp 0 [0] = [0] ∧
    lpDists c5opts c5M c5Mp 0 [0] = [Real.sqrt 10] ∧
    Real.sqrt 10 < 10 := by
  have hraw : lpDistRaw c5opts c5M c5Mp 0 0 = 10 := by
    norm_num [lpDistRaw, lpLoop, lpSeed, lpContrib, lpSubdist, missingPair,
      List.range_succ, c5opts, c5M, c5Mp, MISSING_D]
  have hkeep : lpKeep c5opts c5M c5Mp 0 0 = true := by
    simp only [lpKeep, hraw]
    norm_num [MISSING_D]
  refine ⟨rfl, rfl, by norm_num [c5M, c5Mp], by simp [lpInds, hkeep], ?_, ?_⟩
  · simp only [lpDists, hkeep, if_pos]
    rw [hraw, lpFinalDist]
    norm_num [c5opts]
  · exact (Real.sqrt_lt' (by norm_num)).mpr (by norm_num)

/-- C5 (amended): when `panelMode` is on with `idw > 0`, every surviving
cross-panel candidate has accumulated distance at least `idw`; hence the
returned distance is at least `idw` for MeanAbsoluteError but only at least
`sqrt idw` for Euclidean, because the penalty is seeded before the final
square root. -/
theorem claim5_panel_floor (opts : Options) (M Mp : Manifold) (Mp_i : ℕ)
    (inpInds : List ℕ) (i : ℕ)
    (hpm : opts.panelMode = true) (hidw : 0 < opts.idw)
    (hdiff : M.panel i ≠ Mp.panel Mp_i)
    (hmem : i ∈ lpInds opts M Mp Mp_i inpInds) :
    opts.idw ≤ lpDistRaw opts M Mp i Mp_i ∧
    (opts.distance = Distance.MeanAbsoluteError →
      (opts.idw : ℝ) ≤ lpFinalDist opts (lpDistRaw opts M Mp i Mp_i)) ∧
    (opts.distance = Distance.Euclidean →
      Real.sqrt ((opts.idw : ℝ)) ≤ lpFinalDist opts (lpDistRaw opts M Mp i Mp_i)) ∧
    lpDists opts M Mp Mp_i inpInds =
      (lpInds opts M Mp Mp_i inpInds).map
        (fun i2 => lpFinalDist opts (lpDistRaw opts M Mp i2 Mp_i)) := by
  have hseed : lpSeed opts M Mp i Mp_i = opts.idw := by
    simp [lpSeed, hpm, hidw, hdiff]
  have hkeep : lpKeep opts M Mp i Mp_i = true := by
    rw [lpInds_eq_filter] at hmem
    exact (List.mem_filter.mp hmem).2
  have hnotbr : ¬(opts.missingdistance = 0 ∧ ∃ j < M.E_actual, missingPair M Mp i Mp_i j) := by
    rintro ⟨hmd, hex⟩
    have hraw := lpDistRaw_break opts M Mp i Mp_i hmd hex
    simp [lpKeep, hraw] at hkeep
  have hge : opts.idw ≤ lpDistRaw opts M Mp i Mp_i := by
    rw [lpDistRaw_eq_sum opts M Mp i Mp_i hnotbr, hseed]
    have hs : 0 ≤ ∑ j ∈ Finset.range M.E_actual, lpContrib opts M Mp i Mp_i j :=
      Finset.sum_nonneg fun j _ => lpContrib_nonneg opts M Mp i Mp_i j
    linarith
  refine ⟨hge, ?_, ?_, lpDists_eq_map opts M Mp Mp_i inpInds⟩
  · intro hd
    simp only [lpFinalDist, hd]
    exact_mod_cast hge
  · intro hd
    simp only [lpFinalDist, hd]
    exact Real.sqrt_le_sqrt (by exact_mod_cast hge)

/-- C5 witness: the hypotheses of the amended claim hold at a concrete
cross-panel input, and the Euclidean `sqrt idw` floor applies there. -/
theorem claim5_panel_floor_witness :
    ((0:ℕ) ∈ lpInds c5opts c5M c5Mp 0 [0]) ∧
    Real.sqrt ((c5opts.idw : ℝ)) ≤ lpFinalDist c5opts (lpDistRaw c5opts c5M c5Mp 0 0) := by
  have hraw : lpDistRaw c5opts c5M c5Mp 0 0 = 10 := by
    norm_num [lpDistRaw, lpLoop, lpSeed, lpContrib, lpSubdist, missingPair,
      List.range_succ, c5opts, c5M, c5Mp, MISSING_D]
  have hkeep : lpKeep c5opts c5M c5Mp 0 0 = true := by
    simp only [lpKeep, hraw]
    norm_num [MISSING_D]
  have hmem : (0:ℕ) ∈ lpInds c5opts c5M c5Mp 0 [0] := by
    simp [lpInds, hkeep]
  exact ⟨hmem,
    (claim5_panel_floor c5opts c5M c5Mp 0 [0] 0 rfl (by norm_num [c5opts])
      (by norm_num [c5M, c5Mp]) hmem).2.2.1 rfl⟩

/-! ### Helper lemmas for the S-map system -/

theorem smapBuild_eq (l cols : ℕ) (ind : ℕ → ℕ) (y : ℕ → ℚ) (M : ℕ → ℕ → ℚ)
    (w : ℕ → ℝ) :
    smapBuild l cols ind y M w =
      (((List.range l).filter (fun j => decide (smapKeep cols ind y M j))).map
          (smapRow cols ind M w),
       ((List.range l).filter (fun j => decide (smapKeep cols ind y M j))).map
          (fun j => (y (ind j) : ℝ) * w j)) := by
  suffices h : ∀ (L : List ℕ) (init : List (List ℝ) × List ℝ),
      L.foldl (smapStep cols ind y M w) init =
        (init.1 ++ (L.filter (fun j => decide (smapKeep cols ind y M j))).map
            (smapRow cols ind M w),
         init.2 ++ (L.filter (fun j => decide (smapKeep cols ind y M j))).map
            (fun j => (y (ind j) : ℝ) * w j)) by
    rw [smapBuild, h]
    simp
  intro L
  induction L with
  | nil => intro init; simp
  | cons a L ih =>
    intro init
    rw [List.foldl_cons, ih, List.filter_cons]
    by_cases ha : smapKeep cols ind y M a
    · simp [smapStep, ha]
    · simp [smapStep, ha]

theorem length_filter_range_eq_card (l : ℕ) (p : ℕ → Prop) [DecidablePred p] :
    ((List.range l).filter (fun j => decide (p j))).length =
      ((Finset.range l).filter p).card := by
  induction l with
  | zero => simp
  | succ n ih =>
    rw [List.range_succ, List.filter_append, List.length_append, ih, Finset.range_succ,
        Finset.filter_insert]
    by_cases hp : p n
    · rw [if_pos hp, Finset.card_insert_of_not_mem (by simp)]
      simp [hp]
    · rw [if_neg hp]
      simp [hp]

theorem foldl_add_ite (g : ℕ → ℝ) (p : ℕ → Prop) [DecidablePred p] (n : ℕ) (a : ℝ) :
    (List.range n).foldl (fun r c => if p c then r + g c else r) a =
      a + ∑ c ∈ Finset.range n, if p c then g c else 0 := by
  induction n with
  | zero => simp
  | succ n ih =>
    rw [List.range_succ, List.foldl_append, ih, Finset.sum_range_succ]
    by_cases hp : p n
    · simp [hp]
      ring
    · simp [hp]

/-! ### Claim theorem for the S-map system -/

/-- C3: for the S-map step, the assembled least-squares system has exactly as
many rows as there are selected neighbors with a non-missing target and no
missing library component ("rowc" of the spec), each row has `E_actual + 1`
entries, row `r` is `[w_j, w_j * M(idx_j, 0), ..., w_j * M(idx_j, E_actual-1)]`
and target entry `w_j * y[idx_j]` for the `r`-th qualifying neighbor `j`, and
the prediction is `beta 0` plus the sum over columns of
`M'(q, c-1) * beta c`, skipping columns whose query component is missing. -/
theorem claim3_smap_system (l cols : ℕ) (ind : ℕ → ℕ) (d y : ℕ → ℚ)
    (M : ℕ → ℕ → ℚ) (b : ℕ → ℚ) (theta : ℚ) (beta : ℕ → ℝ) (r : ℕ)
    (hr : r < ((List.range l).filter (fun j => decide (smapKeep cols ind y M j))).length) :
    ((smapBuild l cols ind y M (smapW l d ind theta)).1.length =
        ((Finset.range l).filter
          (fun j => y (ind j) ≠ MISSING_D ∧ ∀ i < cols, M (ind j) i ≠ MISSING_D)).card) ∧
    (∀ row ∈ (smapBuild l cols ind y M (smapW l d ind theta)).1, row.length = cols + 1) ∧
    ((smapBuild l cols ind y M (smapW l d ind theta)).2.length =
        (smapBuild l cols ind y M (smapW l d ind theta)).1.length) ∧
    ((smapBuild l cols ind y M (smapW l d ind theta)).1.getD r [] =
        smapW l d ind theta
            (((List.range l).filter (fun j => decide (smapKeep cols ind y M j))).getD r 0) ::
          (List.range cols).map
            (fun c =>
              (M (ind (((List.range l).filter
                  (fun j => decide (smapKeep cols ind y M j))).getD r 0)) c : ℝ) *
                smapW l d ind theta
                  (((List.range l).filter
                    (fun j => decide (smapKeep cols ind y M j))).getD r 0))) ∧
    ((smapBuild l cols ind y M (smapW l d ind theta)).2.getD r 0 =
        (y (ind (((List.range l).filter
            (fun j => decide (smapKeep cols ind y M j))).getD r 0)) : ℝ) *
          smapW l d ind theta
            (((List.range l).filter (fun j => decide (smapKeep cols ind y M j))).getD r 0)) ∧
    (smapPredict cols b beta =
        beta 0 + ∑ c ∈ Finset.range cols,
          if b c ≠ MISSING_D then (b c : ℝ) * beta (c + 1) else 0) := by
  have hbuild := smapBuild_eq l cols ind y M (smapW l d ind theta)
  have hfilter :
      ((Finset.range l).filter
        (fun j => y (ind j) ≠ MISSING_D ∧ ∀ i < cols, M (ind j) i ≠ MISSING_D)) =
      ((Finset.range l).filter (smapKeep cols ind y M)) := by
    ext j
    simp [Finset.mem_filter, smapKeep]
  constructor
  · rw [hbuild]
    simp only [List.length_map]
    rw [hfilter]
    exact length_filter_range_eq_card l (smapKeep cols ind y M)
  refine ⟨?_, ?_, ?_, ?_, ?_⟩
  · intro row hrow
    rw [hbuild] at hrow
    simp only [List.mem_map] at hrow
    rcases hrow with ⟨j, -, rfl⟩
    simp [smapRow]
  · rw [hbuild]
    simp
  · rw [hbuild]
    simp only
    rw [List.getD_eq_getElem _ _ (by simpa using hr), List.getElem_map,
        List.getD_eq_getElem _ _ hr]
    rfl
  · rw [hbuild]
    simp only
    rw [List.getD_eq_getElem _ _ (by simpa using hr), List.getElem_map,
        List.getD_eq_getElem _ _ hr]
  · exact foldl_add_ite (fun c => (b c : ℝ) * beta (c + 1)) (fun c => b c ≠ MISSING_D)
      cols (beta 0)

/-- C3 witness: the row-index hypothesis holds at a concrete one-neighbor
input, and the first system row there is `[w_0, 3 * w_0]`. -/
theorem claim3_smap_system_witness :
    (0 < ((List.range 1).filter
      (fun j => decide (smapKeep 1 (fun j2 => j2) (fun _ => 2) (fun _ _ => 3) j))).length) ∧
    ((smapBuild 1 1 (fun j2 => j2) (fun _ => 2) (fun _ _ => 3)
        (smapW 1 (fun _ => 1) (fun j2 => j2) 0)).1.getD 0 [] =
      smapW 1 (fun _ => 1) (fun j2 => j2) 0
          (((List.range 1).filter
            (fun j => decide (smapKeep 1 (fun j2 => j2) (fun _ => 2) (fun _ _ => 3) j))).getD 0 0) ::
        (List.range 1).map
          (fun c =>
            ((3 : ℚ) : ℝ) *
              smapW 1 (fun _ => 1) (fun j2 => j2) 0
                (((List.range 1).filter
                  (fun j => decide (smapKeep 1 (fun j2 => j2) (fun _ => 2)
                    (fun _ _ => 3) j))).getD 0 0))) := by
  have hkeep : smapKeep 1 (fun j2 => j2) (fun _ => 2) (fun _ _ => 3) 0 := by
    constructor
    · norm_num [MISSING_D]
    · intro i _
      norm_num [MISSING_D]
  have hlen : ((List.range 1).filter
      (fun j => decide (smapKeep 1 (fun j2 => j2) (fun _ => 2) (fun _ _ => 3) j))).length = 1 := by
    rw [List.range_succ]
    simp [hkeep]
  refine ⟨by rw [hlen]; norm_num, ?_⟩
  exact (claim3_smap_system 1 1 (fun j2 => j2) (fun _ => 1) (fun _ => 2) (fun _ _ => 3)
    (fun _ => 4) 0 (fun _ => 0) 0 (by rw [hlen]; norm_num)).2.2.2.1

/-! ### Helper lemmas and claim theorem for the return-code reduction -/

theorem foldl_max_le (l : List ℕ) (a : ℕ) : a ≤ l.foldl max a := by
  induction l generalizing a with
  | nil => simp
  | cons x l ih => exact le_trans (le_max_left a x) (ih (max a x))

theorem foldl_max_mem_le (l : List ℕ) (a x : ℕ) (hx : x ∈ l) : x ≤ l.foldl max a := by
  induction l generalizing a with
  | nil => simp at hx
  | cons z l ih =>
    rcases List.mem_cons.mp hx with rfl | hm
    · exact le_trans (le_max_right a x) (foldl_max_le l (max a x))
    · exact ih (max a z) hm

theorem foldl_max_cases (l : List ℕ) (a : ℕ) : l.foldl max a = a ∨ l.foldl max a ∈ l := by
  induction l generalizing a with
  | nil => left; rfl
  | cons x l ih =>
    rcases ih (max a x) with h | h
    · rcases max_choice a x with hm | hm
      · left
        rw [List.foldl_cons, h, hm]
      · right
        rw [List.foldl_cons, h, hm]
        exact List.mem_cons_self x l
    · right
      exact List.mem_cons_of_mem x h

theorem max_element_spec (l : List ℕ) (hl : l ≠ []) :
    (∀ x ∈ l, x ≤ max_element l) ∧ max_element l ∈ l := by
  rcases l with _ | ⟨r, rest⟩
  · exact absurd rfl hl
  · constructor
    · intro x hx
      rcases List.mem_cons.mp hx with rfl | hm
      · exact foldl_max_le rest x
      · exact foldl_max_mem_le rest r x hm
    · rcases foldl_max_cases rest r with h1 | h1
      · rw [max_element, h1]
        exact List.mem_cons_self r rest
      · rw [max_element]
        exact List.mem_cons_of_mem r h1

/-- C9: for any nonempty batch of query rows, the return code reported by the
parallel loop equals the maximum (highest-severity) of the per-row return
codes produced by the individual `mf_smap_single` calls. -/
theorem claim9_max_retcode (single : ℕ → ℕ) (rows : ℕ) (h : 0 < rows) :
    (∀ i < rows, single i ≤ mf_smap_loop_maxError single rows) ∧
    (∃ i < rows, mf_smap_loop_maxError single rows = single i) := by
  have hne : mf_smap_loop_rcs single rows ≠ [] := by
    rw [mf_smap_loop_rcs]
    simp [List.range_eq_nil, Nat.pos_iff_ne_zero.mp h]
  have hspec := max_element_spec (mf_smap_loop_rcs single rows) hne
  constructor
  · intro i hi
    exact hspec.1 (single i)
      (List.mem_map_of_mem single (List.mem_range.mpr hi))
  · have hmem := hspec.2
    rw [mf_smap_loop_rcs] at hmem
    rcases List.mem_map.mp hmem with ⟨i, hi, hval⟩
    refine ⟨i, List.mem_range.mp hi, ?_⟩
    rw [mf_smap_loop_maxError, mf_smap_loop_rcs]
    exact hval.symm

/-- C9 witness: the nonemptiness hypothesis holds at a concrete three-row
batch and the reduction is the maximum there. -/
theorem claim9_max_retcode_witness :
    0 < 3 ∧ (∀ i < 3, Nat.succ i ≤ mf_smap_loop_maxError Nat.succ 3) ∧
      (∃ i < 3, mf_smap_loop_maxError Nat.succ 3 = Nat.succ i) := by
  have h := claim9_max_retcode Nat.succ 3 (by norm_num)
  exact ⟨by norm_num, h.1, h.2⟩

/-! ### Claim theorems for the neighbor-count default -/

/-- C8 counterexample: with `k = -1`, `mani = 2` and 5 surviving candidates,
the run uses `mani + 1 = 3` neighbors, not all 5 valid ones: negative `k`
does not mean "use all valid" on the path through `edm`. -/
theorem claim8_neighbor_default_cex :
    edmNeighborCount (-1) 2 5 = 3 ∧ edmNeighborCount (-1) 2 5 ≠ 5 := by
  decide

/-- C8 (amended): `edm` clamps every `k ≤ 0` — zero and negative alike — to
`mani + 1` (`E_actual + 1`), so the count of neighbors used is
`min (E_actual + 1) |surviving|` rather than "all valid" for negative `k`. -/
theorem claim8_neighbor_default (k : ℤ) (mani : ℕ) (numValid : ℕ) (hk : k ≤ 0) :
    edmAdjustK k mani = (mani : ℤ) + 1 ∧
    edmNeighborCount k mani numValid = min (mani + 1) numValid := by
  have h1 : edmAdjustK k mani = (mani : ℤ) + 1 := by
    rw [edmAdjustK, if_pos hk]
  refine ⟨h1, ?_⟩
  rw [edmNeighborCount, h1, selectCount, if_neg (by omega)]
  omega

/-- C8 witness: the hypothesis `k ≤ 0` holds at `k = -1`, `mani = 2`,
`numValid = 5`, and the clamp applies there. -/
theorem claim8_neighbor_default_witness :
    ((-1 : ℤ) ≤ 0) ∧ edmAdjustK (-1) 2 = 3 ∧ edmNeighborCount (-1) 2 5 = 3 := by
  have h := claim8_neighbor_default (-1) 2 5 (by decide)
  refine ⟨by decide, ?_, ?_⟩
  · rw [h.1]
    norm_num
  · rw [h.2]
    norm_num

/-! ### Helper lemmas for the Wasserstein path -/

theorem length_filter_not_countP (L : List ℕ) (p : ℕ → Bool) :
    (L.filter (fun t => !(p t))).length = L.length - L.countP p := by
  induction L with
  | nil => rfl
  | cons a L ih =>
    have hle := List.countP_le_length (p := p) (l := L)
    rw [List.filter_cons, List.countP_cons]
    by_cases hp : p a = true
    · rw [if_neg (by simp [hp]), ih, List.length_cons, if_pos hp]
      omega
    · rw [if_pos (by simp [Bool.not_eq_true] at hp ⊢; exact hp), List.length_cons,
          List.length_cons, ih, if_neg hp]
      omega

open Classical in
theorem wassersteinLoop_cons (ws : ℕ → WInput) (a : ℕ) (rest : List ℕ) :
    wassersteinLoop ws (a :: rest) =
      if 0 < lenI (ws a) ∧ 0 < lenJ (ws a) then
        if wassersteinDist (ws a) ≠ 0 then
          (a :: (wassersteinLoop ws rest).1,
           wassersteinDist (ws a) :: (wassersteinLoop ws rest).2)
        else wassersteinLoop ws rest
      else wassersteinLoop ws rest := by
  rw [wassersteinLoop]

theorem wassersteinLoop_length (ws : ℕ → WInput) (l : List ℕ) :
    (wassersteinLoop ws l).1.length = (wassersteinLoop ws l).2.length := by
  induction l with
  | nil => rfl
  | cons a rest ih =>
    rw [wassersteinLoop_cons]
    by_cases h1 : 0 < lenI (ws a) ∧ 0 < lenJ (ws a)
    · by_cases h2 : wassersteinDist (ws a) ≠ 0
      · rw [if_pos h1, if_pos h2]
        simp [ih]
      · rw [if_pos h1, if_neg h2]
        exact ih
    · rw [if_neg h1]
      exact ih

theorem wassersteinLoop_sublist (ws : ℕ → WInput) (l : List ℕ) :
    (wassersteinLoop ws l).1.Sublist l := by
  induction l with
  | nil => exact List.Sublist.refl _
  | cons a rest ih =>
    rw [wassersteinLoop_cons]
    by_cases h1 : 0 < lenI (ws a) ∧ 0 < lenJ (ws a)
    · by_cases h2 : wassersteinDist (ws a) ≠ 0
      · rw [if_pos h1, if_pos h2]
        exact List.Sublist.cons₂ a ih
      · rw [if_pos h1, if_neg h2]
        exact List.Sublist.cons a ih
    · rw [if_neg h1]
      exact List.Sublist.cons a ih

/-! ### Claim theorems for the Wasserstein path -/

/-- C6: the candidate loop of `wasserstein_distances` pairs every returned
index with the optimal-transport cost of that candidate's cost matrix under
the uniform marginals `1/len_i` and `1/len_j`, and a candidate is returned
exactly when its cost matrix is nonempty and that cost is nonzero (in this
real-valued model every distance is finite, and `std::isnormal` rejects
exactly 0). -/
theorem claim6_wasserstein_loop (ws : ℕ → WInput) (inds : List ℕ) :
    (∀ i, i ∈ (wassersteinLoop ws inds).1 ↔
      (i ∈ inds ∧ 0 < lenI (ws i) ∧ 0 < lenJ (ws i) ∧
        emdCost (lenI (ws i)) (lenJ (ws i))
          (fun _ => 1 / (lenI (ws i) : ℝ)) (fun _ => 1 / (lenJ (ws i) : ℝ))
          (fun n m => ((wcmEntry (ws i) n m : ℚ) : ℝ)) ≠ 0)) ∧
    ((wassersteinLoop ws inds).2 =
      (wassersteinLoop ws inds).1.map (fun i => wassersteinDist (ws i))) := by
  have hdef : ∀ i, wassersteinDist (ws i) =
      emdCost (lenI (ws i)) (lenJ (ws i))
        (fun _ => 1 / (lenI (ws i) : ℝ)) (fun _ => 1 / (lenJ (ws i) : ℝ))
        (fun n m => ((wcmEntry (ws i) n m : ℚ) : ℝ)) := fun i => rfl
  induction inds with
  | nil =>
    constructor
    · intro i
      simp [wassersteinLoop]
    · rfl
  | cons a rest ih =>
    rcases ih with ⟨ih1, ih2⟩
    constructor
    · intro i
      rw [wassersteinLoop_cons]
      by_cases h1 : 0 < lenI (ws a) ∧ 0 < lenJ (ws a)
      · by_cases h2 : wassersteinDist (ws a) ≠ 0
        · rw [if_pos h1, if_pos h2]
          constructor
          · intro hmem
            rcases List.mem_cons.mp hmem with rfl | hm
            · exact ⟨List.mem_cons_self i rest, h1.1, h1.2, (hdef i) ▸ h2⟩
            · rcases (ih1 i).mp hm with ⟨hmr, hrest⟩
              exact ⟨List.mem_cons_of_mem a hmr, hrest⟩
          · rintro ⟨hmem, hcond⟩
            rcases List.mem_cons.mp hmem with rfl | hm
            · exact List.mem_cons_self i _
            · exact List.mem_cons_of_mem a ((ih1 i).mpr ⟨hm, hcond⟩)
        · rw [if_pos h1, if_neg h2]
          constructor
          · intro hmem
            rcases (ih1 i).mp hmem with ⟨hmr, hrest⟩
            exact ⟨List.mem_cons_of_mem a hmr, hrest⟩
          · rintro ⟨hmem, hcond⟩
            rcases List.mem_cons.mp hmem with rfl | hm
            · exact absurd ((hdef i) ▸ hcond.2.2) h2
            · exact (ih1 i).mpr ⟨hm, hcond⟩
      · rw [if_neg h1]
        constructor
        · intro hmem
          rcases (ih1 i).mp hmem with ⟨hmr, hrest⟩
          exact ⟨List.mem_cons_of_mem a hmr, hrest⟩
        · rintro ⟨hmem, hcond⟩
          rcases List.mem_cons.mp hmem with rfl | hm
          · exact absurd ⟨hcond.1, hcond.2.1⟩ h1
          · exact (ih1 i).mpr ⟨hm, hcond⟩
    · rw [wassersteinLoop_cons]
      by_cases h1 : 0 < lenI (ws a) ∧ 0 < lenJ (ws a)
      · by_cases h2 : wassersteinDist (ws a) ≠ 0
        · rw [if_pos h1, if_pos h2]
          simp [ih2]
        · rw [if_pos h1, if_neg h2]
          exact ih2
      · rw [if_neg h1]
        exact ih2

/-- C7 counterexample: with `missing_distance = 1 > 0` and dt embedded, the
per-dimension cost at a missing dt entry is `gamma * missing_distance = 3`,
not `missing_distance`: the claim's "each such cost is the value
missing_distance" fails on the dt dimension. -/
theorem claim7_cost_matrix_cex :
    0 < c7w.missingdistance ∧ c7w.A 1 1 = MISSING_D ∧
    wcmGamma c7w = 3 ∧
    wcmDist c7w 1 1 0 = 3 ∧ wcmDist c7w 1 1 0 ≠ c7w.missingdistance := by
  have hgamma : wcmGamma c7w = 3 := by
    norm_num [wcmGamma, wcmMinData, wcmMaxData, wcmMaxTime, List.range_succ, c7w,
      MISSING_D, dblMax, dblMinPos]
  have hmissA : colMissA c7w 1 = true := by
    norm_num [colMissA, List.range_succ, c7w, MISSING_D]
  have hbase : wcmBase c7w 1 1 0 = 1 := by
    rw [wcmBase]
    rw [if_pos (by rw [hmissA]; rfl)]
    rfl
  have hdist : wcmDist c7w 1 1 0 = 3 := by
    rw [wcmDist, if_pos ⟨rfl, rfl⟩, hbase, hgamma]
    norm_num
  refine ⟨by norm_num [c7w], by norm_num [c7w], hgamma, hdist, ?_⟩
  rw [hdist]
  norm_num [c7w]

/-- C7 (amended): in `wasserstein_cost_matrix`, if `missing_distance == 0`
every time position whose column contains a missing value is compressed out,
so `len_i` and `len_j` equal `E` minus the number of such positions on each
side (hence are at most `E`) and the matrix only reads non-missing positions;
if `missing_distance > 0` then `len_i = len_j = E` and each per-dimension
cost involving a missing entry is `missing_distance` — except on the dt
dimension (`k = 1` when dt is embedded), where the substituted value is
additionally scaled by `gamma`. -/
theorem claim7_cost_matrix (w : WInput) :
    (w.missingdistance = 0 →
      lenI w = w.E - (List.range w.E).countP (colMissA w) ∧
      lenJ w = w.E - (List.range w.E).countP (colMissB w) ∧
      lenI w ≤ w.E ∧ lenJ w ≤ w.E ∧
      (∀ n < lenI w, colMissA w (posA w n) = false) ∧
      (∀ m < lenJ w, colMissB w (posB w m) = false)) ∧
    (0 < w.missingdistance →
      lenI w = w.E ∧ lenJ w = w.E ∧
      (∀ k < w.D, ∀ nn < w.E, ∀ mm < w.E,
        (w.A k nn = MISSING_D ∨ w.B k mm = MISSING_D) →
        wcmDist w k nn mm =
          (if w.hasDt ∧ k = 1 then wcmGamma w * w.missingdistance
           else w.missingdistance))) := by
  constructor
  · intro hmd
    have hskip : skipMissing w = true := by
      simp [skipMissing, hmd]
    have hlenI : lenI w = w.E - (List.range w.E).countP (colMissA w) := by
      rw [lenI, if_pos hskip]
    have hlenJ : lenJ w = w.E - (List.range w.E).countP (colMissB w) := by
      rw [lenJ, if_pos hskip]
    refine ⟨hlenI, hlenJ, by rw [hlenI]; exact Nat.sub_le _ _,
      by rw [hlenJ]; exact Nat.sub_le _ _, ?_, ?_⟩
    · intro n hn
      have hlen : n < (keptA w).length := by
        unfold keptA
        rw [length_filter_not_countP, List.length_range]
        rw [hlenI] at hn
        exact hn
      have hpos : posA w n = (keptA w).getD n 0 := by
        rw [posA, if_pos hskip]
      rw [hpos, List.getD_eq_getElem _ _ hlen]
      have hmem := List.getElem_mem hlen
      unfold keptA at hmem
      have hfil := List.mem_filter.mp hmem
      have := hfil.2
      simpa using this
    · intro m hm
      have hlen : m < (keptB w).length := by
        unfold keptB
        rw [length_filter_not_countP, List.length_range]
        rw [hlenJ] at hm
        exact hm
      have hpos : posB w m = (keptB w).getD m 0 := by
        rw [posB, if_pos hskip]
      rw [hpos, List.getD_eq_getElem _ _ hlen]
      have hmem := List.getElem_mem hlen
      unfold keptB at hmem
      have hfil := List.mem_filter.mp hmem
      have := hfil.2
      simpa using this
  · intro hmd
    have hskip : skipMissing w = false := by
      simp only [skipMissing, decide_eq_false_iff_not]
      exact hmd.ne'
    refine ⟨by simp [lenI, hskip], by simp [lenJ, hskip], ?_⟩
    intro k hk nn _ mm _ hmiss
    have hcol : (colMissA w nn || colMissB w mm) = true := by
      rcases hmiss with hmiss | hmiss
      · apply Bool.or_eq_true_iff.mpr
        left
        rw [colMissA, List.any_eq_true]
        exact ⟨k, List.mem_range.mpr hk, by simp [hmiss]⟩
      · apply Bool.or_eq_true_iff.mpr
        right
        rw [colMissB, List.any_eq_true]
        exact ⟨k, List.mem_range.mpr hk, by simp [hmiss]⟩
    have hbase : wcmBase w k nn mm = w.missingdistance := by
      rw [wcmBase, if_pos hcol]
    rw [wcmDist, hbase]

/-- C7 witness: the `missing_distance > 0` branch of the amended claim holds
at the concrete dt-embedded input, giving `len_i = len_j = E` and the
gamma-scaled substitution at the missing dt entry. -/
theorem claim7_cost_matrix_witness :
    0 < c7w.missingdistance ∧ lenI c7w = c7w.E ∧ lenJ c7w = c7w.E ∧
    wcmDist c7w 1 1 0 =
      (if c7w.hasDt ∧ (1:ℕ) = 1 then wcmGamma c7w * c7w.missingdistance
       else c7w.missingdistance) := by
  have hmd : 0 < c7w.missingdistance := by norm_num [c7w]
  have h := (claim7_cost_matrix c7w).2 hmd
  refine ⟨hmd, h.1, h.2.1, ?_⟩
  exact h.2.2 1 (by norm_num [c7w]) 1 (by norm_num [c7w]) 0 (by norm_num [c7w])
    (Or.inl (by norm_num [c7w]))

/-- C10: both distance engines return an index sequence and a distance
sequence of equal length, and the returned indices form an order-preserving
subsequence of the input candidate list (no reordering, no duplication, no
index from outside the list). -/
theorem claim10_subsequences (opts : Options) (M Mp : Manifold) (Mp_i : ℕ)
    (inpInds : List ℕ) (ws : ℕ → WInput) (inds2 : List ℕ) :
    ((lpInds opts M Mp Mp_i inpInds).length = (lpDists opts M Mp Mp_i inpInds).length ∧
      (lpInds opts M Mp Mp_i inpInds).Sublist inpInds) ∧
    ((wassersteinLoop ws inds2).1.length = (wassersteinLoop ws inds2).2.length ∧
      (wassersteinLoop ws inds2).1.Sublist inds2) := by
  refine ⟨⟨?_, ?_⟩, wassersteinLoop_length ws inds2, wassersteinLoop_sublist ws inds2⟩
  · rw [lpDists_eq_map]
    simp
  · rw [lpInds_eq_filter]
    exact List.filter_sublist _

end EDM
